import Mathlib

/-
  Verification development for the go-openapi-tools code generator.

  The Go sources are shallowly embedded as Lean functions:
  - the identifier normalizer `Depunct` (compiler/convert.go) together with
    `FixName` (the word-segmentation / initialism pass) and `NormalizeParam`;
  - the model extractor `GetMethods` / `GetService` (compiler/compiler.go);
  - the path-parameter reordering and the collision-dedup loop of
    `WriteMethods` (compiler/compiler.go).

  Strings are modelled as lists of Unicode scalar values (`Char`).  The Go
  code indexes strings by bytes; every theorem below only evaluates the
  embedding on inputs where byte indexing and rune indexing agree (ASCII,
  plus the explicitly non-ASCII corruption witness for which the model's
  divergence is itself the point).  Go functions that panic at runtime
  (index out of range, assignment to a nil map, out-of-bounds slice) are
  embedded with `Option`, `none` marking the panic.
-/

namespace OpenAPITools

/-- ASCII fragment of Go's `unicode.IsLower`: `'a' <= c && c <= 'z'`, stated
on code points (97-122).  The theorems in this file only apply it to ASCII
characters (and to U+0000 / U+0100, on which it also agrees with Go). -/
def goIsLower (c : Char) : Bool :=
  decide (97 ≤ c.toNat ∧ c.toNat ≤ 122)

/-- ASCII fragment of Go's `unicode.IsUpper`: `'A' <= c && c <= 'Z'`
(code points 65-90). -/
def goIsUpper (c : Char) : Bool :=
  decide (65 ≤ c.toNat ∧ c.toNat ≤ 90)

/-- ASCII fragment of Go's `unicode.ToUpper`. -/
def goToUpper (c : Char) : Char :=
  if goIsLower c then Char.ofNat (c.toNat - 32) else c

/-- ASCII fragment of Go's `unicode.ToLower`. -/
def goToLower (c : Char) : Char :=
  if goIsUpper c then Char.ofNat (c.toNat + 32) else c

/-- `IsDigit` from compiler/convert.go: `'0' <= c && c <= '9'` (code points
48-57).  Also used as the (agreeing, ASCII) model of `unicode.IsDigit`
inside `FixName`. -/
def IsDigit (c : Char) : Bool :=
  decide (48 ≤ c.toNat ∧ c.toNat ≤ 57)

/-- An ASCII letter in either case. -/
def asciiLetter (c : Char) : Bool :=
  goIsLower c || goIsUpper c

/-- The `commonInitialisms` table (ported from golang.org/x/lint). -/
def commonInitialisms : List String :=
  ["ACL", "API", "ASCII", "CPU", "CSS", "DNS", "EOF", "GUID", "HTML",
   "HTTP", "HTTPS", "ID", "IP", "JSON", "LHS", "QPS", "RAM", "RHS",
   "RPC", "SLA", "SMTP", "SQL", "SSH", "TCP", "TLS", "TTL", "UDP",
   "UI", "UID", "UUID", "URI", "URL", "UTF8", "VM", "XML", "XMPP",
   "XSRF", "XSS"]

/-- The byte written by `sb.WriteByte(byte(c))` in `Depunct`: Go truncates the
rune to its low-order byte, i.e. the code point modulo 256. -/
def depunctWriteByte (c : Char) : Char :=
  Char.ofNat (c.toNat % 256)

/-- The character-scanning loop of `Depunct` (compiler/convert.go lines
62-85).  Arguments: remaining input, the `needCap` flag, the `preserve`
flag.  `strings.HasPrefix(ident[i:], "__")` holds exactly when the current
rune is `'_'` and the next rune is `'_'`, which is how it is rendered here. -/
def depunctScan : List Char → Bool → Bool → List Char
  | [], _, _ => []
  | c :: rest, needCap, preserve =>
    if c = '_' then
      if preserve || rest.head? = some '_' then
        depunctWriteByte (if needCap then goToUpper c else c) ::
          depunctScan rest false true
      else
        depunctScan rest true false
    else
      if c = '-' || c = '.' || c = '$' || c = '/' then
        depunctScan rest true false
      else
        depunctWriteByte (if needCap then goToUpper c else c) ::
          depunctScan rest false false

/-- Length of the leading run of underscores (the inner `for` loop computing
`n` in `FixName`). -/
def countUnderscores (l : List Char) : Nat :=
  (l.takeWhile (fun c => c == '_')).length

/-- Go's `copy(runes[w:], u)` followed by keeping the original length:
overwrites at most `l.length - w` characters starting at `w`. -/
def copyInto (l : List Char) (w : Nat) (u : List Char) : List Char :=
  l.take w ++ u.take (l.length - w) ++ l.drop (w + u.length)

/-- The `switch` inside the word-splitting loop of `FixName` (part_000 lines
167-190): decides whether position `i` ends a word and removes a run of
underscores after `i` when one is there.  Returns the `eow` flag and the
updated `runes`. -/
def fixNameEow (runes : List Char) (i : Nat) : Bool × List Char :=
  if i + 1 = runes.length then (true, runes)
  else if runes.getD (i+1) ' ' = '_' then
    let n0 := 1 + countUnderscores (runes.drop (i+2))
    let n :=
      if i + n0 + 1 < runes.length ∧ IsDigit (runes.getD i ' ') = true ∧
          IsDigit (runes.getD (i+n0+1) ' ') = true
      then n0 - 1 else n0
    (true, runes.take (i+1) ++ runes.drop (i+n+1))
  else if goIsLower (runes.getD i ' ') = true ∧
      goIsLower (runes.getD (i+1) ' ') = false then (true, runes)
  else (false, runes)

/-- The word-processing tail of one loop iteration (part_000 lines 196-210):
the word is `runes[w:i1]` where `i1` is the already incremented scan index;
initialisms get their canonical casing, other non-first all-lowercase words
get their first character capitalized. -/
def fixNameWord (rs : List Char) (w i1 : Nat) : List Char :=
  if String.mk (((rs.drop w).take (i1 - w)).map goToUpper) ∈ commonInitialisms then
    copyInto rs w
      (if w = 0 ∧ goIsLower (rs.getD w ' ') = true
       then (((rs.drop w).take (i1 - w)).map goToUpper).map goToLower
       else ((rs.drop w).take (i1 - w)).map goToUpper)
  else if 0 < w ∧ ((rs.drop w).take (i1 - w)).map goToLower = (rs.drop w).take (i1 - w) then
    rs.set w (goToUpper (rs.getD w ' '))
  else rs

/-- The word-splitting loop of `FixName` (part_000 lines 162-211), with an
explicit fuel parameter.  Go's loop runs `while i+1 <= len(runes)` with `i`
incremented every iteration and `runes` never growing, so it performs at most
`len(runes)` iterations; callers pass `runes.length + 1` fuel, which is
always sufficient. -/
def fixNameLoop : Nat → List Char → Nat → Nat → List Char
  | 0, runes, _, _ => runes
  | fuel+1, runes, w, i =>
    if i + 1 ≤ runes.length then
      let s := fixNameEow runes i
      if s.1 then fixNameLoop fuel (fixNameWord s.2 w (i+1)) (i+1) (i+1)
      else fixNameLoop fuel s.2 w (i+1)
    else runes

/-- `FixName` (part_000 lines 139-213): fast paths for `"_"`, the keyword
`"type"`, and all-lowercase names; otherwise the word-splitting loop. -/
def FixName (name : List Char) : List Char :=
  if name = ['_'] then name
  else if name = "type".data then "typ".data
  else if name.all goIsLower then name
  else fixNameLoop (name.length + 1) name 0 0

/-- The depunctuated, `FixName`-fixed candidate `s` of `Depunct`. -/
def depunctFixed (ident : String) (needCap : Bool) : List Char :=
  FixName (depunctScan ident.data needCap false)

/-- `Depunct` (compiler/convert.go lines 61-97).  `none` models the Go panic:
when the depunctuated, fixed name is empty, `IsDigit(s[0])` indexes an empty
string and panics with index out of range. -/
def Depunct (ident : String) (needCap : Bool) : Option String :=
  if depunctFixed ident needCap = "Typ".data then some "Type"
  else
    match depunctFixed ident needCap with
    | [] => none
    | c :: rest =>
      some (String.mk (if IsDigit c then "X_".data ++ (c :: rest) else c :: rest))

/-- The suffix of `param` after the last `']'` (`strings.LastIndex` step of
`NormalizeParam`). -/
def stripAfterBracket (p : List Char) : List Char :=
  (p.reverse.takeWhile (fun c => c ≠ ']')).reverse

/-- `NormalizeParam` (compiler/convert.go lines 13-24).  `none` models the Go
panic: when the retained suffix is empty, `rune(s[0])` indexes an empty
string. -/
def NormalizeParam (param : String) : Option String :=
  match stripAfterBracket param.data with
  | [] => none
  | c :: rest =>
    some (String.mk (if goIsUpper c then goToLower c :: rest else c :: rest))

example : Depunct "type" false = some "typ" := by decide
example : Depunct "__id" false = some "_ID" := by decide
example : Depunct "1" false = some "X_1" := by decide
example : Depunct "X_1" false = some "X1" := by decide
example : Depunct "" false = none := by decide
example : Depunct "foo-bar_baz" true = some "FooBarBaz" := by decide
example : Depunct "id" true = some "ID" := by decide
example : Depunct "a__b" false = some "aB" := by decide
example : NormalizeParam "" = none := by decide
example : NormalizeParam "Abc" = some "abc" := by decide
example : NormalizeParam "x[0]y" = some "y" := by decide

/-! ## Go string ordering

Go compares strings bytewise; on valid UTF-8 that coincides with
lexicographic comparison of the code-point sequences, which is what `lexLt`
computes. -/

/-- Lexicographic strict order on code-point sequences (Go's `<` on
strings). -/
def lexLt : List Char → List Char → Bool
  | [], [] => false
  | [], _ :: _ => true
  | _ :: _, [] => false
  | a :: as, b :: bs =>
    if a < b then true else if b < a then false else lexLt as bs

/-- Go's `<=` on strings (used to express a stable sort ordered by `<`). -/
def goStrLe (a b : String) : Bool :=
  !(lexLt b.data a.data)

/-! ## The model extractor (compiler/compiler.go) -/

/-- An operation: for the partitioning claims only its declared tag list
matters. -/
structure Operation where
  tags : List String
deriving DecidableEq

/-- A path item with its operations keyed by HTTP verb, as returned by
`item.Operations()`. -/
structure PathItem where
  ops : List (String × Operation)
deriving DecidableEq

/-- The fragment of the parsed OpenAPI document that `GetMethods` reads:
the declared top-level tags and the paths map. -/
structure Doc where
  tags : List String
  paths : List (String × PathItem)

/-- A key of the Go map `g.methods : map[*Service]PathItemsMap`.  Go keys the
map by pointer identity: `none` is the package-level `defaultService`
pointer, `some i` the `Service` allocated for the i-th declared tag.  Two
tags with the same name still yield distinct keys, exactly as two distinct
pointers do. -/
abbrev ServiceKey := Option Nat

/-- `PathItemsMap`: path to the slice of appended `*openapi3.PathItem`s. -/
abbrev PathMap := List (String × List PathItem)

/-- `m[path] = append(m[path], item)` on a non-nil Go map `m`, on the
association-list rendering of the map (each key occurs at most once). -/
def pmAppend : PathMap → String → PathItem → PathMap
  | [], path, item => [(path, [item])]
  | e :: rest, path, item =>
    if e.1 = path then (e.1, e.2 ++ [item]) :: rest
    else e :: pmAppend rest path item

/-- Reading `m[path]` from a Go map (missing key gives the empty slice). -/
def pmLookup : PathMap → String → List PathItem
  | [], _ => []
  | e :: rest, path => if e.1 = path then e.2 else pmLookup rest path

/-- One operation of the `switch len(op.Tags)` statement in `GetMethods`
(compiler/compiler.go lines 417-431).  A zero-tag operation writes through
`g.methods[defaultService]`; when the document declared tags, that key is
absent, the inner map is nil, and the assignment panics (`none`).  A
single-tag operation appends the item to every registered service.
Operations with two or more tags are silently dropped. -/
def attachOp (methods : List (ServiceKey × PathMap)) (path : String)
    (item : PathItem) (op : Operation) : Option (List (ServiceKey × PathMap)) :=
  if op.tags.length = 0 then
    if methods.any (fun e => e.1 = none) then
      some (methods.map
        (fun e => if e.1 = none then (e.1, pmAppend e.2 path item) else e))
    else none
  else if op.tags.length = 1 then
    some (methods.map (fun e => (e.1, pmAppend e.2 path item)))
  else
    some methods

/-- Folding `attachOp` over the operations of one path item. -/
def attachOps (methods : List (ServiceKey × PathMap)) (path : String)
    (item : PathItem) :
    List (String × Operation) → Option (List (ServiceKey × PathMap))
  | [] => some methods
  | (_, op) :: rest =>
    match attachOp methods path item op with
    | none => none
    | some m => attachOps m path item rest

/-- The outer `for path, item := range g.openAPI.Paths` loop of
`GetMethods`. -/
def attachAll (methods : List (ServiceKey × PathMap)) :
    List (String × PathItem) → Option (List (ServiceKey × PathMap))
  | [] => some methods
  | (path, item) :: rest =>
    match attachOps methods path item item.ops with
    | none => none
    | some m => attachAll m rest

/-- `GetMethods` (compiler/compiler.go lines 393-437): initialize the service
map from the declared tags (or the sole default service), then attach every
operation.  `none` models the nil-map-assignment panic. -/
def GetMethods (doc : Doc) : Option (List (ServiceKey × PathMap)) :=
  let init : List (ServiceKey × PathMap) :=
    if doc.tags.length = 0 then [(none, [])]
    else (List.range doc.tags.length).map (fun i => (some i, []))
  attachAll init doc.paths

/-- `Service.Name` of the service behind a key: the raw declared tag name, or
`"default"` for the synthetic default service. -/
def serviceName (doc : Doc) : ServiceKey → String
  | none => "default"
  | some i => doc.tags.getD i ""

/-- `GetService` (compiler/compiler.go lines 372-388): the services collected
from the `g.methods` keys, stably sorted by raw `Service.Name`
(`sort.SliceStable` with `Name <`). -/
def GetService (doc : Doc) : Option (List String) :=
  (GetMethods doc).map
    (fun m => List.insertionSort (fun a b => goStrLe a b = true)
      (m.map (fun e => serviceName doc e.1)))

example :
    GetMethods (Doc.mk ["t"] [("/a", PathItem.mk [("GET", Operation.mk [])])]) =
      none := by decide
example : GetService (Doc.mk ["a_b", "B"] []) = some ["B", "a_b"] := by decide

/-! ## Path-parameter reordering (compiler/compiler.go lines 710-725) -/

/-- A declared path parameter: its name and its schema type.  The second
field keeps distinct declarations distinguishable; only the name takes part
in matching. -/
structure PathParamDecl where
  name : String
  schemaType : String
deriving DecidableEq

/-- The `for { idx := strings.Index(pth, "{") ... }` loop that reorders the
path bucket by the left-to-right `{name}` placeholders of the template.
Fuel makes the recursion structural: every iteration drops `idx + endIdx`
characters, which is positive for every well-formed template, so the
`pth.length + 1` fuel supplied by `orderedPathParams` suffices there; a
degenerate `"{}"` placeholder makes the Go loop spin forever, which the model
maps to `none`.  A `"{"` without a later `"}"` makes Go slice with negative
length and panic, also `none`. -/
def pathParamScan : Nat → List Char → List PathParamDecl →
    List PathParamDecl → Option (List PathParamDecl)
  | 0, _, _, _ => none
  | fuel+1, pth, pmPath, acc =>
    match pth.findIdx? (fun c => c == '{') with
    | none => some acc
    | some idx =>
      match (pth.drop (idx+1)).findIdx? (fun c => c == '}') with
      | none => none
      | some endIdx =>
        let nm := String.mk ((pth.drop (idx+1)).take endIdx)
        pathParamScan fuel (pth.drop (idx + endIdx)) pmPath
          (acc ++ pmPath.filter (fun pr => pr.name = nm))

/-- The whole path-bucket treatment of one method: first
`sort.SliceStable(pm["path"], Name <)` (lines 706-708), then the placeholder
reordering loop. -/
def orderedPathParams (path : String) (declared : List PathParamDecl) :
    Option (List PathParamDecl) :=
  pathParamScan (path.length + 1) path.data
    (List.insertionSort (fun a b => goStrLe a.name b.name = true) declared) []

/-- The placeholder names of a template, read left to right by the same
scanning discipline as `pathParamScan`. -/
def placeholderScan : Nat → List Char → List String → Option (List String)
  | 0, _, _ => none
  | fuel+1, pth, acc =>
    match pth.findIdx? (fun c => c == '{') with
    | none => some acc
    | some idx =>
      match (pth.drop (idx+1)).findIdx? (fun c => c == '}') with
      | none => none
      | some endIdx =>
        placeholderScan fuel (pth.drop (idx + endIdx))
          (acc ++ [String.mk ((pth.drop (idx+1)).take endIdx)])

/-- Placeholders of a template string. -/
def pathPlaceholders (path : String) : Option (List String) :=
  placeholderScan (path.length + 1) path.data []

example : pathPlaceholders "/a/{id}/b/{name}" = some ["id", "name"] := by decide
example :
    orderedPathParams "/a/{id}/b/{name}"
        [PathParamDecl.mk "name" "string", PathParamDecl.mk "id" "integer"] =
      some [PathParamDecl.mk "id" "integer", PathParamDecl.mk "name" "string"] := by
  decide

/-! ## The collision-dedup loop of WriteMethods (lines 678-689, 774) -/

/-- The per-operation container type name `fmt.Sprintf("%s%sCall", ...)`. -/
def methKey (svcName opID : String) : String :=
  svcName ++ opID ++ "Call"

/-- The deterministic iteration order of `WriteMethods`: sorted paths crossed
with sorted verbs. -/
def methodPairs (paths verbs : List String) : List (String × String) :=
  (List.insertionSort (fun a b => goStrLe a b = true) paths).flatMap
    (fun p => (List.insertionSort (fun a b => goStrLe a b = true) verbs).map
      (fun v => (p, v)))

/-- The `seen` loop of `WriteMethods`: emit an operation unless its
`svcName + OperationID + "Call"` key was already seen, in which case
`continue` skips it. -/
def emitLoop (svcName : String) (lookup : String → String → Option String) :
    List (String × String) → List String → List (String × String × String)
  | [], _ => []
  | (p, v) :: rest, seen =>
    match lookup p v with
    | none => emitLoop svcName lookup rest seen
    | some opID =>
      if methKey svcName opID ∈ seen then emitLoop svcName lookup rest seen
      else (p, v, opID) :: emitLoop svcName lookup rest (methKey svcName opID :: seen)

/-- The methods emitted by `WriteMethods` for one service: `lookup p v` is
`operations[path][method]`, already carrying the normalized
(`Depunct`, `"Get"`-stripped) operation identifier. -/
def WriteMethodsEmit (svcName : String) (paths verbs : List String)
    (lookup : String → String → Option String) : List (String × String × String) :=
  emitLoop svcName lookup (methodPairs paths verbs) []

/-- The operations a pair list resolves to, in order. -/
def lookupSeq (lookup : String → String → Option String)
    (L : List (String × String)) : List (String × String × String) :=
  L.filterMap (fun pv => (lookup pv.1 pv.2).map (fun opID => (pv.1, pv.2, opID)))

/-- The full visiting order before deduplication: every (path, verb) pair of
the iteration that resolves to an operation. -/
def iterSeq (paths verbs : List String)
    (lookup : String → String → Option String) : List (String × String × String) :=
  lookupSeq lookup (methodPairs paths verbs)

example :
    WriteMethodsEmit "S" ["/b", "/a"] ["GET", "POST"]
        (fun p v =>
          if p = "/a" ∧ v = "GET" then some "X"
          else if p = "/b" ∧ v = "POST" then some "X"
          else none) =
      [("/a", "GET", "X")] := by decide

/-! ## General lemmas about the embedded functions -/

theorem copyInto_length (l : List Char) (w : Nat) (u : List Char) :
    (copyInto l w u).length = l.length := by
  simp only [copyInto, List.length_append, List.length_take, List.length_drop]
  omega

theorem fixNameWord_length (rs : List Char) (w i1 : Nat) :
    (fixNameWord rs w i1).length = rs.length := by
  unfold fixNameWord
  split
  · rw [copyInto_length]
  · split
    · rw [List.length_set]
    · rfl

theorem fixNameEow_length_pos (runes : List Char) (i : Nat)
    (h : 0 < runes.length) : 0 < (fixNameEow runes i).2.length := by
  unfold fixNameEow
  split_ifs <;>
    simp only [List.length_append, List.length_take, List.length_drop] <;>
    omega

theorem fixNameLoop_length_pos :
    ∀ (fuel : Nat) (runes : List Char) (w i : Nat), 0 < runes.length →
      0 < (fixNameLoop fuel runes w i).length := by
  intro fuel
  induction fuel with
  | zero => intro runes w i h; exact h
  | succ n ih =>
    intro runes w i h
    unfold fixNameLoop
    by_cases hle : i + 1 ≤ runes.length
    · simp only [hle, if_true]
      by_cases hb : (fixNameEow runes i).1
      · simp only [hb, if_true]
        apply ih
        rw [fixNameWord_length]
        exact fixNameEow_length_pos _ _ h
      · simp only [hb, if_false]
        exact ih _ _ _ (fixNameEow_length_pos _ _ h)
    · simp only [hle, if_false]
      exact h

theorem FixName_ne_nil (name : List Char) (h : name ≠ []) : FixName name ≠ [] := by
  unfold FixName
  split_ifs
  · exact h
  · decide
  · exact h
  · exact List.ne_nil_of_length_pos
      (fixNameLoop_length_pos _ _ _ _ (List.length_pos.mpr h))

/-! ## Character-level lemmas -/

theorem char_toNat_ofNat (n : Nat) (h : n < 55296) : (Char.ofNat n).toNat = n := by
  unfold Char.ofNat
  rw [dif_pos (Or.inl h)]
  rfl

theorem char_eq_of_toNat_eq (a b : Char) (h : a.toNat = b.toNat) : a = b :=
  Char.ext (UInt32.toNat.inj h)

theorem char_ofNat_toNat (c : Char) (h : c.toNat < 55296) :
    Char.ofNat c.toNat = c :=
  char_eq_of_toNat_eq _ _ (char_toNat_ofNat c.toNat h)

theorem goIsLower_iff (c : Char) :
    goIsLower c = true ↔ 97 ≤ c.toNat ∧ c.toNat ≤ 122 := by
  simp [goIsLower]

theorem asciiLetter_iff (c : Char) :
    asciiLetter c = true ↔
      (97 ≤ c.toNat ∧ c.toNat ≤ 122) ∨ (65 ≤ c.toNat ∧ c.toNat ≤ 90) := by
  simp [asciiLetter, goIsLower, goIsUpper]

theorem asciiLetter_of_lower (c : Char) (h : goIsLower c = true) :
    asciiLetter c = true := by
  rw [asciiLetter_iff]
  exact Or.inl ((goIsLower_iff c).mp h)

theorem letters_of_lower (l : List Char) (h : ∀ ch ∈ l, goIsLower ch = true) :
    ∀ ch ∈ l, asciiLetter ch = true :=
  fun ch hch => asciiLetter_of_lower ch (h ch hch)

theorem goToUpper_toNat (c : Char) (h : goIsLower c = true) :
    (goToUpper c).toNat = c.toNat - 32 := by
  have hb := (goIsLower_iff c).mp h
  unfold goToUpper
  rw [if_pos h]
  exact char_toNat_ofNat _ (by omega)

theorem goToUpper_id (c : Char) (h : goIsLower c = false) : goToUpper c = c := by
  simp [goToUpper, h]

theorem goToUpper_letter_upper (c : Char) (h : asciiLetter c = true) :
    65 ≤ (goToUpper c).toNat ∧ (goToUpper c).toNat ≤ 90 := by
  rcases (asciiLetter_iff c).mp h with hl | hu
  · rw [goToUpper_toNat c ((goIsLower_iff c).mpr hl)]
    omega
  · rw [goToUpper_id c (by rw [← Bool.not_eq_true, goIsLower_iff]; omega)]
    exact hu

theorem goIsLower_of_upper_range (c : Char)
    (h : 65 ≤ c.toNat ∧ c.toNat ≤ 90) : goIsLower c = false := by
  rw [← Bool.not_eq_true, goIsLower_iff]
  omega

theorem asciiLetter_of_upper_range (c : Char)
    (h : 65 ≤ c.toNat ∧ c.toNat ≤ 90) : asciiLetter c = true := by
  rw [asciiLetter_iff]
  exact Or.inr h

theorem IsDigit_letter (c : Char) (h : asciiLetter c = true) :
    IsDigit c = false := by
  have hb := (asciiLetter_iff c).mp h
  rw [← Bool.not_eq_true]
  simp only [IsDigit, decide_eq_true_eq]
  omega

theorem goToUpper_goToUpper (c : Char) (h : asciiLetter c = true) :
    goToUpper (goToUpper c) = goToUpper c :=
  goToUpper_id _ (goIsLower_of_upper_range _ (goToUpper_letter_upper c h))

theorem depunctWriteByte_letter (c : Char) (h : asciiLetter c = true) :
    depunctWriteByte c = c := by
  have hb := (asciiLetter_iff c).mp h
  unfold depunctWriteByte
  rw [Nat.mod_eq_of_lt (by omega)]
  exact char_ofNat_toNat c (by omega)

theorem letter_ne_char (c d : Char) (h : asciiLetter c = true)
    (hd : asciiLetter d = false) : c ≠ d := by
  intro he
  rw [he, hd] at h
  exact absurd h (by decide)

/-! ## The depunctuation scan on ASCII letters -/

theorem depunctScan_cons_letter (c : Char) (rest : List Char)
    (needCap pres : Bool) (hc : asciiLetter c = true) :
    depunctScan (c :: rest) needCap pres =
      depunctWriteByte (if needCap then goToUpper c else c) ::
        depunctScan rest false false := by
  simp only [depunctScan]
  rw [if_neg (letter_ne_char c '_' hc (by decide))]
  rw [if_neg (by simp [letter_ne_char c '-' hc (by decide),
        letter_ne_char c '.' hc (by decide), letter_ne_char c '$' hc (by decide),
        letter_ne_char c '/' hc (by decide)])]

theorem depunctScan_letters_id :
    ∀ (l : List Char) (pres : Bool), (∀ ch ∈ l, asciiLetter ch = true) →
      depunctScan l false pres = l := by
  intro l
  induction l with
  | nil => intro pres _; rfl
  | cons c rest ih =>
    intro pres h
    have hc := h c (List.mem_cons_self _ _)
    rw [depunctScan_cons_letter c rest false pres hc, if_neg (by simp),
      depunctWriteByte_letter c hc,
      ih false (fun ch hch => h ch (List.mem_cons_of_mem _ hch))]

theorem depunctScan_letters_cap (c : Char) (rest : List Char) (pres : Bool)
    (hc : asciiLetter c = true) (hrest : ∀ ch ∈ rest, asciiLetter ch = true) :
    depunctScan (c :: rest) true pres = goToUpper c :: rest := by
  rw [depunctScan_cons_letter c rest true pres hc, if_pos rfl,
    depunctWriteByte_letter _ (asciiLetter_of_upper_range _ (goToUpper_letter_upper c hc)),
    depunctScan_letters_id rest false hrest]

/-! ## The FixName loop on single-word names

When a name has no underscore after position 0 and no lower-to-nonlower
transition, the scan of `FixName` reaches the end of the name without an
intermediate end-of-word, processes the whole name as one word, and stops. -/

theorem fixNameLoop_single_word :
    ∀ (d fuel : Nat) (runes : List Char) (i : Nat),
      i + 1 + d = runes.length →
      (∀ j, 1 ≤ j → j < runes.length → runes.getD j ' ' ≠ '_' ∧
        ¬(goIsLower (runes.getD (j-1) ' ') = true ∧
          goIsLower (runes.getD j ' ') = false)) →
      d + 2 ≤ fuel →
      fixNameLoop fuel runes 0 i = fixNameWord runes 0 runes.length := by
  intro d
  induction d with
  | zero =>
    intro fuel runes i hlen htail hfuel
    cases fuel with
    | zero => omega
    | succ f =>
      cases f with
      | zero => omega
      | succ f2 =>
        have hle : i + 1 ≤ runes.length := by omega
        have heq : i + 1 = runes.length := by omega
        have heow : fixNameEow runes i = (true, runes) := by
          unfold fixNameEow
          rw [if_pos heq]
        simp only [fixNameLoop]
        rw [if_pos hle, heow]
        rw [if_pos rfl]
        show fixNameLoop (f2+1) (fixNameWord runes 0 (i+1)) (i+1) (i+1) =
          fixNameWord runes 0 runes.length
        rw [heq]
        simp only [fixNameLoop]
        rw [if_neg (by rw [fixNameWord_length]; omega)]
  | succ d ih =>
    intro fuel runes i hlen htail hfuel
    cases fuel with
    | zero => omega
    | succ f =>
      have hle : i + 1 ≤ runes.length := by omega
      have hne : ¬(i + 1 = runes.length) := by omega
      have hj := htail (i+1) (by omega) (by omega)
      have hj2 := hj.2
      rw [Nat.add_sub_cancel] at hj2
      have heow : fixNameEow runes i = (false, runes) := by
        unfold fixNameEow
        rw [if_neg hne, if_neg hj.1, if_neg hj2]
      simp only [fixNameLoop]
      rw [if_pos hle, heow]
      rw [if_neg (by simp)]
      exact ih f runes (i+1) (by omega) htail (by omega)

theorem FixName_single_word (runes : List Char) (hne : runes ≠ [])
    (hhd : goIsLower (runes.getD 0 ' ') = false)
    (hu : runes ≠ ['_']) (ht : runes ≠ "type".data)
    (htail : ∀ j, 1 ≤ j → j < runes.length → runes.getD j ' ' ≠ '_' ∧
      ¬(goIsLower (runes.getD (j-1) ' ') = true ∧
        goIsLower (runes.getD j ' ') = false)) :
    FixName runes =
      if String.mk (runes.map goToUpper) ∈ commonInitialisms
      then runes.map goToUpper else runes := by
  have hpos : 0 < runes.length := List.length_pos.mpr hne
  unfold FixName
  rw [if_neg hu, if_neg ht, if_neg ?hall]
  case hall =>
    intro hall
    cases hr : runes with
    | nil => exact hne hr
    | cons c rest =>
      rw [hr] at hall hhd
      rw [List.getD_cons_zero] at hhd
      rw [List.all_cons, Bool.and_eq_true] at hall
      rw [hall.1] at hhd
      exact absurd hhd (by decide)
  rw [fixNameLoop_single_word (runes.length - 1) (runes.length + 1) runes 0
      (by omega) htail (by omega)]
  unfold fixNameWord
  simp only [List.drop_zero, Nat.sub_zero, List.take_length]
  by_cases hmem : String.mk (runes.map goToUpper) ∈ commonInitialisms
  · rw [if_pos hmem, if_pos hmem]
    rw [if_neg (fun hcon => by rw [hcon.2] at hhd; exact absurd hhd (by decide))]
    unfold copyInto
    rw [List.take_zero, Nat.sub_zero]
    have hu1 : (runes.map goToUpper).take runes.length = runes.map goToUpper := by
      conv_lhs => rw [show runes.length = (runes.map goToUpper).length from
        (List.length_map _ _).symm]
      exact List.take_length _
    have hu2 : runes.drop (0 + (runes.map goToUpper).length) = [] := by
      rw [Nat.zero_add, List.length_map, List.drop_length]
    rw [hu1, hu2]
    simp
  · rw [if_neg hmem, if_neg hmem]
    rw [if_neg (by simp)]

/-! ## Depunct on all-lowercase ASCII inputs -/

theorem map_goToUpper_id (l : List Char) (h : ∀ ch ∈ l, goIsLower ch = false) :
    l.map goToUpper = l := by
  induction l with
  | nil => rfl
  | cons c rest ih =>
    rw [List.map_cons, goToUpper_id c (h c (List.mem_cons_self _ _)),
      ih (fun ch hch => h ch (List.mem_cons_of_mem _ hch))]

theorem Depunct_lower_notype (d : List Char) (hne : d ≠ [])
    (hl : ∀ ch ∈ d, goIsLower ch = true) (hnt : d ≠ "type".data) :
    Depunct (String.mk d) false = some (String.mk d) := by
  have hus : d ≠ ['_'] := by
    intro he
    rw [he] at hl
    exact absurd (hl '_' (by simp)) (by decide)
  have hfix : depunctFixed (String.mk d) false = d := by
    unfold depunctFixed
    show FixName (depunctScan d false false) = d
    rw [depunctScan_letters_id d false (letters_of_lower d hl)]
    unfold FixName
    rw [if_neg hus, if_neg hnt, if_pos (List.all_eq_true.mpr hl)]
  have hTyp : d ≠ "Typ".data := by
    intro he
    rw [he] at hl
    exact absurd (hl 'T' (by decide)) (by decide)
  unfold Depunct
  rw [hfix, if_neg hTyp]
  cases hd2 : d with
  | nil => exact absurd hd2 hne
  | cons c rest =>
    have hc := hl c (by rw [hd2]; exact List.mem_cons_self _ _)
    show some (String.mk (if IsDigit c then "X_".data ++ (c :: rest) else c :: rest)) =
      some (String.mk (c :: rest))
    rw [IsDigit_letter c (asciiLetter_of_lower c hc)]
    rfl

theorem Depunct_fixpoint_cap (t : List Char) (hne : t ≠ [])
    (hlet : ∀ ch ∈ t, asciiLetter ch = true)
    (hhd : goIsLower (t.getD 0 ' ') = false)
    (hbound : ∀ j, 1 ≤ j → j < t.length →
      ¬(goIsLower (t.getD (j-1) ' ') = true ∧ goIsLower (t.getD j ' ') = false))
    (hmem : String.mk (t.map goToUpper) ∈ commonInitialisms →
      t.map goToUpper = t)
    (hnTyp : t ≠ "Typ".data) :
    Depunct (String.mk t) true = some (String.mk t) := by
  obtain ⟨c, rest, rfl⟩ : ∃ c rest, t = c :: rest := by
    cases t with
    | nil => exact absurd rfl hne
    | cons c rest => exact ⟨c, rest, rfl⟩
  have hc : asciiLetter c = true := hlet c (List.mem_cons_self _ _)
  have hcl : goIsLower c = false := by
    rw [List.getD_cons_zero] at hhd
    exact hhd
  have hrest : ∀ ch ∈ rest, asciiLetter ch = true :=
    fun ch hch => hlet ch (List.mem_cons_of_mem _ hch)
  have hscan : depunctScan (c :: rest) true false = c :: rest := by
    rw [depunctScan_letters_cap c rest false hc hrest, goToUpper_id c hcl]
  have htail : ∀ j, 1 ≤ j → j < (c :: rest).length →
      (c :: rest).getD j ' ' ≠ '_' ∧
      ¬(goIsLower ((c :: rest).getD (j-1) ' ') = true ∧
        goIsLower ((c :: rest).getD j ' ') = false) := by
    intro j h1 h2
    refine ⟨?_, hbound j h1 h2⟩
    obtain ⟨k, rfl⟩ : ∃ k, j = k + 1 := ⟨j - 1, by omega⟩
    rw [List.getD_cons_succ]
    have hk : k < rest.length := by
      rw [List.length_cons] at h2
      omega
    rw [List.getD_eq_getElem rest ' ' hk]
    exact letter_ne_char _ '_' (hrest _ (List.getElem_mem hk)) (by decide)
  have hfix : depunctFixed (String.mk (c :: rest)) true =
      if String.mk ((c :: rest).map goToUpper) ∈ commonInitialisms
      then (c :: rest).map goToUpper else c :: rest := by
    unfold depunctFixed
    show FixName (depunctScan (c :: rest) true false) = _
    rw [hscan]
    refine FixName_single_word (c :: rest) (by simp) hhd ?_ ?_ htail
    · intro he
      injection he with h1 _
      rw [h1] at hc
      exact absurd hc (by decide)
    · intro he
      injection he with h1 _
      rw [h1] at hcl
      exact absurd hcl (by decide)
  by_cases hm : String.mk ((c :: rest).map goToUpper) ∈ commonInitialisms
  · have hTt : (c :: rest).map goToUpper = c :: rest := hmem hm
    unfold Depunct
    rw [hfix, if_pos hm, hTt, if_neg hnTyp]
    show some (String.mk (if IsDigit c then "X_".data ++ (c :: rest) else c :: rest)) =
      some (String.mk (c :: rest))
    rw [IsDigit_letter c hc]
    rfl
  · unfold Depunct
    rw [hfix, if_neg hm, if_neg hnTyp]
    show some (String.mk (if IsDigit c then "X_".data ++ (c :: rest) else c :: rest)) =
      some (String.mk (c :: rest))
    rw [IsDigit_letter c hc]
    rfl

/-- Claim C1, amended: the normalizer is not idempotent in general (the
digit-prefix step and the preserved-underscore collapse both produce outputs
that renormalize differently, see the counterexample), but it is idempotent
on every nonempty input consisting solely of ASCII lowercase letters, for
both values of the capitalization flag. -/
theorem depunct_idempotent_on_lower :
    ∀ (s : String) (cap : Bool), s.data ≠ [] →
      (∀ ch ∈ s.data, goIsLower ch = true) →
      (Depunct s cap).bind (fun t => Depunct t cap) = Depunct s cap := by
  intro s cap hne hl
  obtain ⟨d⟩ := s
  cases cap with
  | false =>
    by_cases hty : d = "type".data
    · subst hty
      decide
    · have h1 := Depunct_lower_notype d hne hl hty
      rw [h1]
      show Depunct (String.mk d) false = some (String.mk d)
      exact h1
  | true =>
    obtain ⟨c, rest, rfl⟩ : ∃ c rest, d = c :: rest := by
      cases d with
      | nil => exact absurd rfl hne
      | cons c rest => exact ⟨c, rest, rfl⟩
    have hc : goIsLower c = true := hl c (List.mem_cons_self _ _)
    have hca : asciiLetter c = true := asciiLetter_of_lower c hc
    have hrest : ∀ ch ∈ rest, goIsLower ch = true :=
      fun ch hch => hl ch (List.mem_cons_of_mem _ hch)
    have hresta : ∀ ch ∈ rest, asciiLetter ch = true := letters_of_lower rest hrest
    have hscan : depunctScan (c :: rest) true false = goToUpper c :: rest :=
      depunctScan_letters_cap c rest false hca hresta
    have hCapHd : goIsLower (goToUpper c) = false :=
      goIsLower_of_upper_range _ (goToUpper_letter_upper c hca)
    have hCapHdA : asciiLetter (goToUpper c) = true :=
      asciiLetter_of_upper_range _ (goToUpper_letter_upper c hca)
    have htailCap : ∀ j, 1 ≤ j → j < (goToUpper c :: rest).length →
        (goToUpper c :: rest).getD j ' ' ≠ '_' ∧
        ¬(goIsLower ((goToUpper c :: rest).getD (j-1) ' ') = true ∧
          goIsLower ((goToUpper c :: rest).getD j ' ') = false) := by
      intro j h1 h2
      obtain ⟨k, rfl⟩ : ∃ k, j = k + 1 := ⟨j - 1, by omega⟩
      have hk : k < rest.length := by
        rw [List.length_cons] at h2
        omega
      have hmemk : rest.getD k ' ' ∈ rest := by
        rw [List.getD_eq_getElem rest ' ' hk]
        exact List.getElem_mem hk
      constructor
      · rw [List.getD_cons_succ]
        exact letter_ne_char _ '_' (hresta _ hmemk) (by decide)
      · rw [List.getD_cons_succ]
        intro hcon
        rw [hrest _ hmemk] at hcon
        exact absurd hcon.2 (by decide)
    have hfix1 : depunctFixed (String.mk (c :: rest)) true =
        if String.mk ((goToUpper c :: rest).map goToUpper) ∈ commonInitialisms
        then (goToUpper c :: rest).map goToUpper else goToUpper c :: rest := by
      unfold depunctFixed
      show FixName (depunctScan (c :: rest) true false) = _
      rw [hscan]
      refine FixName_single_word (goToUpper c :: rest) (by simp) ?_ ?_ ?_ htailCap
      · rw [List.getD_cons_zero]
        exact hCapHd
      · intro he
        injection he with h1 _
        rw [h1] at hCapHdA
        exact absurd hCapHdA (by decide)
      · intro he
        injection he with h1 _
        have hb := goToUpper_letter_upper c hca
        rw [h1] at hb
        exact absurd hb (by decide)
    have hupperT : ∀ ch ∈ (goToUpper c :: rest).map goToUpper,
        65 ≤ ch.toNat ∧ ch.toNat ≤ 90 := by
      intro ch hch
      obtain ⟨a, ha, rfl⟩ := List.mem_map.mp hch
      rcases List.mem_cons.mp ha with rfl | hmem
      · rw [goToUpper_goToUpper c hca]
        exact goToUpper_letter_upper c hca
      · exact goToUpper_letter_upper a (hresta a hmem)
    have hTne : (goToUpper c :: rest).map goToUpper ≠ "Typ".data := by
      intro he
      have hy : ('y' : Char) ∈ (goToUpper c :: rest).map goToUpper := by
        rw [he]
        decide
      have := hupperT 'y' hy
      exact absurd this (by decide)
    by_cases hm : String.mk ((goToUpper c :: rest).map goToUpper) ∈ commonInitialisms
    · have h1 : Depunct (String.mk (c :: rest)) true =
          some (String.mk ((goToUpper c :: rest).map goToUpper)) := by
        unfold Depunct
        rw [hfix1, if_pos hm, if_neg hTne]
        rw [List.map_cons]
        show some (String.mk (if IsDigit (goToUpper (goToUpper c)) then
            "X_".data ++ (goToUpper (goToUpper c) :: rest.map goToUpper)
            else goToUpper (goToUpper c) :: rest.map goToUpper)) = _
        rw [IsDigit_letter _ (by
          rw [goToUpper_goToUpper c hca]
          exact hCapHdA)]
        rfl
      have h2 : Depunct (String.mk ((goToUpper c :: rest).map goToUpper)) true =
          some (String.mk ((goToUpper c :: rest).map goToUpper)) := by
        refine Depunct_fixpoint_cap _ (by simp) ?_ ?_ ?_ ?_ hTne
        · intro ch hch
          exact asciiLetter_of_upper_range ch (hupperT ch hch)
        · have h0 : (0 : Nat) < ((goToUpper c :: rest).map goToUpper).length := by
            simp
          rw [List.getD_eq_getElem _ ' ' h0]
          exact goIsLower_of_upper_range _ (hupperT _ (List.getElem_mem h0))
        · intro j h1j h2j
          intro hcon
          have hj1 : j - 1 < ((goToUpper c :: rest).map goToUpper).length := by omega
          rw [List.getD_eq_getElem _ ' ' hj1] at hcon
          have := goIsLower_of_upper_range _ (hupperT _ (List.getElem_mem hj1))
          rw [this] at hcon
          exact absurd hcon.1 (by decide)
        · intro _
          apply map_goToUpper_id
          intro ch hch
          exact goIsLower_of_upper_range ch (hupperT ch hch)
      rw [h1]
      show Depunct (String.mk ((goToUpper c :: rest).map goToUpper)) true =
        some (String.mk ((goToUpper c :: rest).map goToUpper))
      exact h2
    · by_cases hTyp : goToUpper c :: rest = "Typ".data
      · have hgc : goToUpper c = 'T' := by
          injection hTyp with h1 _
        have hrp : rest = ['y', 'p'] := by
          injection hTyp with _ h2
        have hct : c = 't' := by
          apply char_eq_of_toNat_eq
          have h1 := goToUpper_toNat c hc
          rw [hgc] at h1
          have hb := (goIsLower_iff c).mp hc
          have h84 : ('T' : Char).toNat = 84 := by decide
          have h116 : ('t' : Char).toNat = 116 := by decide
          omega
        subst hct
        subst hrp
        decide
      · have h1 : Depunct (String.mk (c :: rest)) true =
            some (String.mk (goToUpper c :: rest)) := by
          unfold Depunct
          rw [hfix1, if_neg hm, if_neg hTyp]
          show some (String.mk (if IsDigit (goToUpper c) then
              "X_".data ++ (goToUpper c :: rest) else goToUpper c :: rest)) = _
          rw [IsDigit_letter _ hCapHdA]
          rfl
        have h2 : Depunct (String.mk (goToUpper c :: rest)) true =
            some (String.mk (goToUpper c :: rest)) := by
          refine Depunct_fixpoint_cap _ (by simp) ?_ ?_ ?_ ?_ hTyp
          · intro ch hch
            rcases List.mem_cons.mp hch with rfl | hmem
            · exact hCapHdA
            · exact hresta ch hmem
          · rw [List.getD_cons_zero]
            exact hCapHd
          · intro j h1j h2j
            obtain ⟨k, rfl⟩ : ∃ k, j = k + 1 := ⟨j - 1, by omega⟩
            have hk : k < rest.length := by
              rw [List.length_cons] at h2j
              omega
            have hmemk : rest.getD k ' ' ∈ rest := by
              rw [List.getD_eq_getElem rest ' ' hk]
              exact List.getElem_mem hk
            intro hcon
            rw [List.getD_cons_succ] at hcon
            rw [hrest _ hmemk] at hcon
            exact absurd hcon.2 (by decide)
          · intro hmm
            exact absurd hmm hm
        rw [h1]
        show Depunct (String.mk (goToUpper c :: rest)) true =
          some (String.mk (goToUpper c :: rest))
        exact h2

/-- Witness for the amended claim C1 at concrete lowercase inputs, one per
flag value (including the initialism path and the keyword path). -/
theorem depunct_idempotent_on_lower_witness :
    (Depunct "id" true).bind (fun t => Depunct t true) = Depunct "id" true ∧
    (Depunct "type" false).bind (fun t => Depunct t false) = Depunct "type" false :=
  ⟨depunct_idempotent_on_lower "id" true (by decide) (by decide),
   depunct_idempotent_on_lower "type" false (by decide) (by decide)⟩

/-! ## Ordering lemmas for the Go string order -/

theorem lexLt_nil_right : ∀ l : List Char, lexLt l [] = false := by
  intro l; cases l <;> rfl

theorem lexLt_asymm :
    ∀ a b : List Char, lexLt a b = true → lexLt b a = false := by
  intro a
  induction a with
  | nil =>
    intro b hb
    cases b with
    | nil => exact absurd hb (by decide)
    | cons y ys => rfl
  | cons x xs ih =>
    intro b hb
    cases b with
    | nil => exact absurd hb (by simp [lexLt_nil_right])
    | cons y ys =>
      unfold lexLt at hb ⊢
      by_cases h1 : x < y
      · rw [if_neg (lt_asymm h1), if_pos h1]
      · by_cases h2 : y < x
        · rw [if_neg h1, if_pos h2] at hb
          exact absurd hb (by decide)
        · rw [if_neg h1, if_neg h2] at hb
          rw [if_neg h2, if_neg h1]
          exact ih ys hb

theorem lexLt_neg_trans :
    ∀ a b c : List Char, lexLt b a = false → lexLt c b = false →
      lexLt c a = false := by
  intro a
  induction a with
  | nil =>
    intro b c _ _
    exact lexLt_nil_right c
  | cons x xs ih =>
    intro b c h1 h2
    cases b with
    | nil => simp [lexLt] at h1
    | cons y ys =>
      cases c with
      | nil => simp [lexLt] at h2
      | cons z zs =>
        unfold lexLt at h1 h2 ⊢
        by_cases hyx : y < x
        · rw [if_pos hyx] at h1
          exact absurd h1 (by decide)
        · by_cases hzy : z < y
          · rw [if_pos hzy] at h2
            exact absurd h2 (by decide)
          · have hxley : x ≤ y := le_of_not_lt hyx
            have hylez : y ≤ z := le_of_not_lt hzy
            have hzx : ¬ z < x := not_lt_of_ge (le_trans hxley hylez)
            by_cases hxz : x < z
            · rw [if_neg hzx, if_pos hxz]
            · have hzlex : z ≤ x := le_of_not_lt hxz
              have hnxy : ¬ x < y := not_lt_of_ge (le_trans hylez hzlex)
              have hnyz : ¬ y < z := not_lt_of_ge (le_trans hzlex hxley)
              rw [if_neg hyx, if_neg hnxy] at h1
              rw [if_neg hzy, if_neg hnyz] at h2
              rw [if_neg hzx, if_neg hxz]
              exact ih ys zs h1 h2

/-! ## Closed theorems settled by evaluation -/

/-- Claim C1, counterexample: the normalizer is not idempotent.  Normalizing
`"1"` yields `"X_1"` (digit-prefix step), but renormalizing `"X_1"` elides
the single underscore and yields `"X1"`. -/
theorem depunct_not_idempotent_cex :
    ¬ ((Depunct "1" false).bind (fun t => Depunct t false) = Depunct "1" false) := by
  decide

/-- Claim C2, counterexample: `Depunct` panics (index out of range on
`s[0]`) on the empty string and on `"_"`, and `NormalizeParam` panics on the
empty string and on strings ending in `']'`. -/
theorem depunct_partial_cex :
    (Depunct "" false).isSome = false ∧ (Depunct "_" false).isSome = false ∧
    (Depunct "-" true).isSome = false ∧
    (NormalizeParam "").isSome = false ∧ (NormalizeParam "a]").isSome = false := by
  decide

/-- Claim C3, counterexample: `normalize("__id", false)` is `"_ID"`, not
`"__id"`: the `FixName` pass collapses the preserved double underscore and
canonicalizes the initialism `id`. -/
theorem depunct_double_underscore_cex :
    Depunct "__id" false ≠ some "__id" := by decide

/-- Claim C3, amended: the depunctuation pass does keep the `"__"` run of
`"__id"` verbatim, but the `FixName` word-segmentation pass then drops the
run down to a single underscore and upper-cases the initialism, so the final
result is `"_ID"`. -/
theorem depunct_double_underscore_collapsed :
    depunctScan "__id".data false false = "__id".data ∧
    FixName "__id".data = "_ID".data ∧
    Depunct "__id" false = some "_ID" := by decide

/-- Claim C4, counterexample: in a document declaring one tag, an operation
with zero tags makes `GetMethods` assign through the nil map
`g.methods[defaultService]` and panic; and in a zero-tag document an
operation with two tags is attached to no service at all (the default
service's path map stays empty). -/
theorem getMethods_untagged_op_panics_cex :
    GetMethods (Doc.mk ["t"] [("/a", PathItem.mk [("GET", Operation.mk [])])]) =
      none ∧
    GetMethods (Doc.mk [] [("/a", PathItem.mk [("GET", Operation.mk ["t1", "t2"])])]) =
      some [((none : ServiceKey), ([] : PathMap))] :=
  ⟨by decide, by decide⟩

/-- Claim C6, counterexample: `GetService` sorts by the raw tag name, not the
normalized one.  For tags `"a_b"` and `"B"` the raw order is
`["B", "a_b"]`, whose normalized names `["B", "AB"]` are strictly
descending. -/
theorem getService_not_sorted_normalized_cex :
    GetService (Doc.mk ["a_b", "B"] []) = some ["B", "a_b"] ∧
    Depunct "B" true = some "B" ∧ Depunct "a_b" true = some "AB" ∧
    lexLt "AB".data "B".data = true := by decide

/-- Claim C2, amended: the normalizer fails (panics) exactly when nothing at
all survives its scanning pass.  Whenever the depunctuation scan retains at
least one character, `Depunct` returns a value; and whenever the text after
the last `']'` is nonempty, `NormalizeParam` returns a value. -/
theorem depunct_total_on_retained :
    (∀ (s : String) (c : Bool), depunctScan s.data c false ≠ [] →
      (Depunct s c).isSome = true) ∧
    (∀ p : String, stripAfterBracket p.data ≠ [] →
      (NormalizeParam p).isSome = true) := by
  constructor
  · intro s c h
    have h2 : depunctFixed s c ≠ [] := FixName_ne_nil _ h
    unfold Depunct
    split
    · rfl
    · split
      · exact absurd (by assumption) h2
      · rfl
  · intro p h
    unfold NormalizeParam
    split
    · exact absurd (by assumption) h
    · rfl

/-- Witness for the amended claim C2 at concrete inputs. -/
theorem depunct_total_on_retained_witness :
    (Depunct "a-b" false).isSome = true ∧ (NormalizeParam "x]y").isSome = true :=
  ⟨depunct_total_on_retained.1 "a-b" false (by decide),
   depunct_total_on_retained.2 "x]y" (by decide)⟩

/-- Claim C6, amended: the services returned by `GetService` are sorted
ascending by the raw `Service.Name` (the declared tag name), for every
document on which extraction completes. -/
theorem getService_sorted_raw_name :
    ∀ (doc : Doc) (svcs : List String), GetService doc = some svcs →
      List.Sorted (fun a b => goStrLe a b = true) svcs := by
  intro doc svcs h
  have htot : ∀ a b : String, goStrLe a b = true ∨ goStrLe b a = true := by
    intro a b
    unfold goStrLe
    cases hab : lexLt b.data a.data with
    | false => exact Or.inl rfl
    | true => exact Or.inr (by rw [lexLt_asymm _ _ hab]; rfl)
  have htrans : ∀ a b c : String, goStrLe a b = true → goStrLe b c = true →
      goStrLe a c = true := by
    intro a b c hab hbc
    unfold goStrLe at hab hbc ⊢
    have hab' : lexLt b.data a.data = false := by
      cases h' : lexLt b.data a.data
      · rfl
      · rw [h'] at hab; exact absurd hab (by decide)
    have hbc' : lexLt c.data b.data = false := by
      cases h' : lexLt c.data b.data
      · rfl
      · rw [h'] at hbc; exact absurd hbc (by decide)
    rw [lexLt_neg_trans a.data b.data c.data hab' hbc']
    rfl
  haveI instTot : IsTotal String (fun a b => goStrLe a b = true) := ⟨htot⟩
  haveI instTrans : IsTrans String (fun a b => goStrLe a b = true) := ⟨htrans⟩
  unfold GetService at h
  cases hm : GetMethods doc with
  | none => rw [hm] at h; simp at h
  | some m =>
    rw [hm] at h
    simp only [Option.map_some', Option.some.injEq] at h
    rw [← h]
    exact List.sorted_insertionSort _ _

/-- Witness for the amended claim C6: the service list of a concrete document
is sorted by raw name. -/
theorem getService_sorted_raw_name_witness :
    List.Sorted (fun a b => goStrLe a b = true) ["B", "a_b"] :=
  getService_sorted_raw_name (Doc.mk ["a_b", "B"] []) ["B", "a_b"] (by decide)

/-! ## Claims C4 and C5: partitioning by GetMethods -/

theorem pmLookup_append_self :
    ∀ (pm : PathMap) (p : String) (item : PathItem),
      item ∈ pmLookup (pmAppend pm p item) p := by
  intro pm
  induction pm with
  | nil =>
    intro p item
    simp [pmAppend, pmLookup]
  | cons e rest ih =>
    intro p item
    unfold pmAppend
    by_cases hk : e.1 = p
    · simp [hk, pmLookup]
    · simp only [if_neg hk]
      unfold pmLookup
      simp only [if_neg hk]
      exact ih p item

theorem pmLookup_append_mono :
    ∀ (pm : PathMap) (p q : String) (item x : PathItem),
      x ∈ pmLookup pm q → x ∈ pmLookup (pmAppend pm p item) q := by
  intro pm
  induction pm with
  | nil =>
    intro p q item x hx
    simp [pmLookup] at hx
  | cons e rest ih =>
    intro p q item x hx
    unfold pmLookup at hx
    unfold pmAppend
    by_cases hk : e.1 = p
    · simp only [if_pos hk]
      unfold pmLookup
      by_cases hq : e.1 = q
      · simp only [if_pos hq] at hx ⊢
        exact List.mem_append_left _ hx
      · simp only [if_neg hq] at hx ⊢
        exact hx
    · simp only [if_neg hk]
      unfold pmLookup
      by_cases hq : e.1 = q
      · simp only [if_pos hq] at hx ⊢
        exact hx
      · simp only [if_neg hq] at hx ⊢
        exact ih p q item x hx

theorem attachOp_one (m : List (ServiceKey × PathMap)) (p : String)
    (item : PathItem) (op : Operation) (h : op.tags.length = 1) :
    attachOp m p item op = some (m.map (fun e => (e.1, pmAppend e.2 p item))) := by
  unfold attachOp
  rw [h]
  rfl

theorem attachOp_mono_ex (m : List (ServiceKey × PathMap)) (p : String)
    (item : PathItem) (op : Operation) (m2 : List (ServiceKey × PathMap))
    (h : attachOp m p item op = some m2) :
    ∀ e2 ∈ m2, ∃ e ∈ m, e2.1 = e.1 ∧
      ∀ q x, x ∈ pmLookup e.2 q → x ∈ pmLookup e2.2 q := by
  unfold attachOp at h
  by_cases h0 : op.tags.length = 0
  · rw [if_pos h0] at h
    by_cases hdef : m.any (fun e => e.1 = none) = true
    · rw [if_pos hdef] at h
      injection h with h
      subst h
      intro e2 he2
      obtain ⟨e, hem, hfe⟩ := List.mem_map.mp he2
      refine ⟨e, hem, ?_⟩
      by_cases hk : e.1 = none
      · rw [if_pos hk] at hfe
        subst hfe
        exact ⟨rfl, fun q x hx => pmLookup_append_mono _ _ _ _ _ hx⟩
      · rw [if_neg hk] at hfe
        subst hfe
        exact ⟨rfl, fun q x hx => hx⟩
    · rw [if_neg hdef] at h
      exact absurd h (by simp)
  · rw [if_neg h0] at h
    by_cases h1 : op.tags.length = 1
    · rw [if_pos h1] at h
      injection h with h
      subst h
      intro e2 he2
      obtain ⟨e, hem, hfe⟩ := List.mem_map.mp he2
      subst hfe
      exact ⟨e, hem, rfl, fun q x hx => pmLookup_append_mono _ _ _ _ _ hx⟩
    · rw [if_neg h1] at h
      injection h with h
      subst h
      intro e2 he2
      exact ⟨e2, he2, rfl, fun q x hx => hx⟩

theorem attachOps_mono_ex (p : String) (item : PathItem) :
    ∀ (ops : List (String × Operation)) (m m2 : List (ServiceKey × PathMap)),
      attachOps m p item ops = some m2 →
      ∀ e2 ∈ m2, ∃ e ∈ m, e2.1 = e.1 ∧
        ∀ q x, x ∈ pmLookup e.2 q → x ∈ pmLookup e2.2 q := by
  intro ops
  induction ops with
  | nil =>
    intro m m2 h e2 he2
    injection h with h
    subst h
    exact ⟨e2, he2, rfl, fun q x hx => hx⟩
  | cons vo rest ih =>
    intro m m2 h e2 he2
    unfold attachOps at h
    cases h1 : attachOp m p item vo.2 with
    | none => rw [h1] at h; exact absurd h (by simp)
    | some m1 =>
      rw [h1] at h
      obtain ⟨e1, he1, hk1, hm1⟩ := ih m1 m2 h e2 he2
      obtain ⟨e, he, hk, hm⟩ := attachOp_mono_ex m p item vo.2 m1 h1 e1 he1
      exact ⟨e, he, hk1.trans hk, fun q x hx => hm1 q x (hm q x hx)⟩

theorem attachAll_mono_ex :
    ∀ (paths : List (String × PathItem)) (m m2 : List (ServiceKey × PathMap)),
      attachAll m paths = some m2 →
      ∀ e2 ∈ m2, ∃ e ∈ m, e2.1 = e.1 ∧
        ∀ q x, x ∈ pmLookup e.2 q → x ∈ pmLookup e2.2 q := by
  intro paths
  induction paths with
  | nil =>
    intro m m2 h e2 he2
    injection h with h
    subst h
    exact ⟨e2, he2, rfl, fun q x hx => hx⟩
  | cons pi rest ih =>
    intro m m2 h e2 he2
    unfold attachAll at h
    cases h1 : attachOps m pi.1 pi.2 pi.2.ops with
    | none => rw [h1] at h; exact absurd h (by simp)
    | some m1 =>
      rw [h1] at h
      obtain ⟨e1, he1, hk1, hm1⟩ := ih m1 m2 h e2 he2
      obtain ⟨e, he, hk, hm⟩ := attachOps_mono_ex pi.1 pi.2 pi.2.ops m m1 h1 e1 he1
      exact ⟨e, he, hk1.trans hk, fun q x hx => hm1 q x (hm q x hx)⟩

theorem attachOps_attaches (p : String) (item : PathItem) :
    ∀ (ops : List (String × Operation)) (m m2 : List (ServiceKey × PathMap)),
      attachOps m p item ops = some m2 →
      ∀ vo ∈ ops, vo.2.tags.length = 1 →
      ∀ e2 ∈ m2, item ∈ pmLookup e2.2 p := by
  intro ops
  induction ops with
  | nil =>
    intro m m2 _ vo hvo
    simp at hvo
  | cons vo2 rest ih =>
    intro m m2 h vo hvo htags e2 he2
    unfold attachOps at h
    cases h1 : attachOp m p item vo2.2 with
    | none => rw [h1] at h; exact absurd h (by simp)
    | some m1 =>
      rw [h1] at h
      rcases List.mem_cons.mp hvo with rfl | hmem
      · rw [attachOp_one m p item vo.2 htags] at h1
        injection h1 with h1
        obtain ⟨e1, he1, _, hm1⟩ := attachOps_mono_ex p item rest m1 m2 h e2 he2
        subst h1
        obtain ⟨e, _, hfe⟩ := List.mem_map.mp he1
        apply hm1 p item
        rw [← hfe]
        exact pmLookup_append_self _ _ _
      · exact ih m1 m2 h vo hmem htags e2 he2

theorem attachAll_attaches :
    ∀ (paths : List (String × PathItem)) (m m2 : List (ServiceKey × PathMap)),
      attachAll m paths = some m2 →
      ∀ pi ∈ paths, ∀ vo ∈ pi.2.ops, vo.2.tags.length = 1 →
      ∀ e2 ∈ m2, pi.2 ∈ pmLookup e2.2 pi.1 := by
  intro paths
  induction paths with
  | nil =>
    intro m m2 _ pi hpi
    simp at hpi
  | cons pj rest ih =>
    intro m m2 h pi hpi vo hvo htags e2 he2
    unfold attachAll at h
    cases h1 : attachOps m pj.1 pj.2 pj.2.ops with
    | none => rw [h1] at h; exact absurd h (by simp)
    | some m1 =>
      rw [h1] at h
      rcases List.mem_cons.mp hpi with rfl | hmem
      · obtain ⟨e1, he1, _, hm1⟩ := attachAll_mono_ex rest m1 m2 h e2 he2
        exact hm1 pi.1 pi.2
          (attachOps_attaches pi.1 pi.2 pi.2.ops m m1 h1 vo hvo htags e1 he1)
      · exact ih m1 m2 h pi hmem vo hvo htags e2 he2

theorem attachOp_default (pm : PathMap) (p : String) (item : PathItem)
    (op : Operation) (h : op.tags.length ≤ 1) :
    attachOp [(none, pm)] p item op = some [(none, pmAppend pm p item)] := by
  unfold attachOp
  rcases Nat.le_one_iff_eq_zero_or_eq_one.mp h with h0 | h1
  · rw [h0]
    simp
  · rw [h1]
    simp

theorem attachOps_default (p : String) (item : PathItem) :
    ∀ (ops : List (String × Operation)) (pm : PathMap),
      (∀ vo ∈ ops, vo.2.tags.length ≤ 1) →
      ∃ pm2, attachOps [(none, pm)] p item ops = some [(none, pm2)] ∧
        (∀ q x, x ∈ pmLookup pm q → x ∈ pmLookup pm2 q) ∧
        (ops ≠ [] → item ∈ pmLookup pm2 p) := by
  intro ops
  induction ops with
  | nil =>
    intro pm _
    exact ⟨pm, rfl, fun q x hx => hx, fun hne => absurd rfl hne⟩
  | cons vo rest ih =>
    intro pm hops
    obtain ⟨pm2, hrec, hmono, hatt⟩ := ih (pmAppend pm p item)
      (fun v hv => hops v (List.mem_cons_of_mem _ hv))
    refine ⟨pm2, ?_, ?_, ?_⟩
    · unfold attachOps
      rw [attachOp_default pm p item vo.2 (hops vo (List.mem_cons_self _ _))]
      exact hrec
    · exact fun q x hx => hmono q x (pmLookup_append_mono pm p q item x hx)
    · intro _
      cases hr : rest with
      | nil =>
        rw [hr] at hrec
        injection hrec with hrec
        injection hrec with hrec _
        injection hrec with _ hpm
        rw [← hpm]
        exact pmLookup_append_self pm p item
      | cons a l =>
        exact hmono p item (pmLookup_append_self pm p item)

theorem attachAll_default :
    ∀ (paths : List (String × PathItem)) (pm : PathMap),
      (∀ pi ∈ paths, ∀ vo ∈ pi.2.ops, vo.2.tags.length ≤ 1) →
      ∃ pm2, attachAll [(none, pm)] paths = some [(none, pm2)] ∧
        (∀ q x, x ∈ pmLookup pm q → x ∈ pmLookup pm2 q) ∧
        (∀ pi ∈ paths, pi.2.ops ≠ [] → pi.2 ∈ pmLookup pm2 pi.1) := by
  intro paths
  induction paths with
  | nil =>
    intro pm _
    exact ⟨pm, rfl, fun q x hx => hx, by simp⟩
  | cons pj rest ih =>
    intro pm hops
    obtain ⟨pm1, hops1, hmono1, hatt1⟩ :=
      attachOps_default pj.1 pj.2 pj.2.ops pm (hops pj (List.mem_cons_self _ _))
    obtain ⟨pm2, hrec, hmono2, hatt2⟩ := ih pm1
      (fun pi hpi => hops pi (List.mem_cons_of_mem _ hpi))
    refine ⟨pm2, ?_, fun q x hx => hmono2 q x (hmono1 q x hx), ?_⟩
    · unfold attachAll
      rw [hops1]
      exact hrec
    · intro pi hpi hne
      rcases List.mem_cons.mp hpi with rfl | hmem
      · have hops_ne : pi.2.ops ≠ [] := hne
        exact hmono2 pi.1 pi.2 (hatt1 hops_ne)
      · exact hatt2 pi hmem hne

theorem attachOps_total_one (p : String) (item : PathItem) :
    ∀ (ops : List (String × Operation)) (m : List (ServiceKey × PathMap)),
      (∀ vo ∈ ops, vo.2.tags.length = 1) →
      ∃ m1, attachOps m p item ops = some m1 ∧ m1.length = m.length := by
  intro ops
  induction ops with
  | nil =>
    intro m _
    exact ⟨m, rfl, rfl⟩
  | cons vo rest ih =>
    intro m hops
    obtain ⟨m1, hrec, hlen⟩ := ih (m.map (fun e => (e.1, pmAppend e.2 p item)))
      (fun v hv => hops v (List.mem_cons_of_mem _ hv))
    refine ⟨m1, ?_, by rw [hlen, List.length_map]⟩
    unfold attachOps
    rw [attachOp_one m p item vo.2 (hops vo (List.mem_cons_self _ _))]
    exact hrec

theorem attachAll_total_one :
    ∀ (paths : List (String × PathItem)) (m : List (ServiceKey × PathMap)),
      (∀ pi ∈ paths, ∀ vo ∈ pi.2.ops, vo.2.tags.length = 1) →
      ∃ m2, attachAll m paths = some m2 ∧ m2.length = m.length := by
  intro paths
  induction paths with
  | nil =>
    intro m _
    exact ⟨m, rfl, rfl⟩
  | cons pj rest ih =>
    intro m hops
    obtain ⟨m1, hops1, hlen1⟩ :=
      attachOps_total_one pj.1 pj.2 pj.2.ops m (hops pj (List.mem_cons_self _ _))
    obtain ⟨m2, hrec, hlen2⟩ := ih m1
      (fun pi hpi => hops pi (List.mem_cons_of_mem _ hpi))
    refine ⟨m2, ?_, by rw [hlen2, hlen1]⟩
    unfold attachAll
    rw [hops1]
    exact hrec

/-- Claim C4, amended.  Zero-tag documents: every operation with at most one
tag is attached to the single synthetic default service (operations with two
or more tags are dropped, see the counterexample).  Documents with declared
tags: when every operation declares exactly one tag, extraction completes,
registers one service per declared tag and attaches every operation to every
service; but a zero-tag operation in such a document panics (see the
counterexample). -/
theorem getMethods_partition_amended :
    (∀ doc : Doc, doc.tags = [] →
      (∀ pi ∈ doc.paths, ∀ vo ∈ pi.2.ops, vo.2.tags.length ≤ 1) →
      ∃ pm, GetMethods doc = some [(none, pm)] ∧
        ∀ pi ∈ doc.paths, ∀ vo ∈ pi.2.ops, pi.2 ∈ pmLookup pm pi.1) ∧
    (∀ doc : Doc, doc.tags ≠ [] →
      (∀ pi ∈ doc.paths, ∀ vo ∈ pi.2.ops, vo.2.tags.length = 1) →
      ∃ m, GetMethods doc = some m ∧ m.length = doc.tags.length ∧
        ∀ e ∈ m, ∀ pi ∈ doc.paths, ∀ vo ∈ pi.2.ops, pi.2 ∈ pmLookup e.2 pi.1) := by
  constructor
  · intro doc htags hops
    obtain ⟨pm2, hall, _, hatt⟩ := attachAll_default doc.paths [] hops
    refine ⟨pm2, ?_, ?_⟩
    · unfold GetMethods
      rw [htags]
      exact hall
    · intro pi hpi vo hvo
      exact hatt pi hpi (List.ne_nil_of_mem hvo)
  · intro doc htags hops
    obtain ⟨m2, hall, hlen⟩ := attachAll_total_one doc.paths
      ((List.range doc.tags.length).map (fun i => (some i, []))) hops
    have hlen0 : ¬ doc.tags.length = 0 := by
      simpa [List.length_eq_zero] using htags
    refine ⟨m2, ?_, ?_, ?_⟩
    · unfold GetMethods
      rw [if_neg hlen0]
      exact hall
    · rw [hlen, List.length_map, List.length_range]
    · intro e he pi hpi vo hvo
      exact attachAll_attaches doc.paths _ m2 hall pi hpi vo hvo
        (hops pi hpi vo hvo) e he

/-- Witness for the amended claim C4 at two concrete documents: an untagged
document with one untagged operation, and a one-tag document whose single
operation declares that tag. -/
theorem getMethods_partition_amended_witness :
    (∃ pm, GetMethods (Doc.mk [] [("/a", PathItem.mk [("GET", Operation.mk [])])]) =
        some [(none, pm)] ∧
      ∀ pi ∈ [("/a", PathItem.mk [("GET", Operation.mk [])])],
        ∀ vo ∈ pi.2.ops, pi.2 ∈ pmLookup pm pi.1) ∧
    (∃ m, GetMethods (Doc.mk ["t"] [("/a", PathItem.mk [("GET", Operation.mk ["t"])])]) =
        some m ∧ m.length = 1 ∧
      ∀ e ∈ m, ∀ pi ∈ [("/a", PathItem.mk [("GET", Operation.mk ["t"])])],
        ∀ vo ∈ pi.2.ops, pi.2 ∈ pmLookup e.2 pi.1) :=
  ⟨getMethods_partition_amended.1
      (Doc.mk [] [("/a", PathItem.mk [("GET", Operation.mk [])])]) rfl (by decide),
   getMethods_partition_amended.2
      (Doc.mk ["t"] [("/a", PathItem.mk [("GET", Operation.mk ["t"])])])
      (by decide) (by decide)⟩

/-- Claim C5: every operation declaring exactly one tag has its path item
attached to every service registered for the document, with no filtering by
matching tag name, whenever extraction completes. -/
theorem getMethods_single_tag_attaches_all :
    ∀ (doc : Doc) (m : List (ServiceKey × PathMap)), GetMethods doc = some m →
      ∀ pi ∈ doc.paths, ∀ vo ∈ pi.2.ops, vo.2.tags.length = 1 →
      ∀ e ∈ m, pi.2 ∈ pmLookup e.2 pi.1 := by
  intro doc m h pi hpi vo hvo htags e he
  exact attachAll_attaches doc.paths _ m h pi hpi vo hvo htags e he

/-- Witness for claim C5: in a one-tag document, a single-tag operation's
path item lands in the (sole) registered service's path map. -/
theorem getMethods_single_tag_attaches_all_witness :
    PathItem.mk [("GET", Operation.mk ["t"])] ∈
      pmLookup [("/a", [PathItem.mk [("GET", Operation.mk ["t"])]])] "/a" :=
  getMethods_single_tag_attaches_all
    (Doc.mk ["t"] [("/a", PathItem.mk [("GET", Operation.mk ["t"])])])
    [(some 0, [("/a", [PathItem.mk [("GET", Operation.mk ["t"])]])])]
    (by decide)
    ("/a", PathItem.mk [("GET", Operation.mk ["t"])]) (by decide)
    ("GET", Operation.mk ["t"]) (by decide) (by decide)
    (some 0, [("/a", [PathItem.mk [("GET", Operation.mk ["t"])]])]) (by decide)

/-! ## Claim C7: path-parameter ordering -/

theorem placeholderScan_acc :
    ∀ (fuel : Nat) (pth : List Char) (a : List String),
      placeholderScan fuel pth a =
        (placeholderScan fuel pth []).map (fun phs => a ++ phs) := by
  intro fuel
  induction fuel with
  | zero => intro pth a; rfl
  | succ n ih =>
    intro pth a
    unfold placeholderScan
    cases hidx : pth.findIdx? (fun c => c == '{') with
    | none => simp
    | some idx =>
      cases hend : (pth.drop (idx+1)).findIdx? (fun c => c == '}') with
      | none => simp [hend]
      | some endIdx =>
        simp only [hend, List.nil_append]
        rw [ih (pth.drop (idx + endIdx))
              (a ++ [String.mk ((pth.drop (idx+1)).take endIdx)]),
            ih (pth.drop (idx + endIdx))
              ([String.mk ((pth.drop (idx+1)).take endIdx)])]
        cases placeholderScan n (pth.drop (idx + endIdx)) [] <;> simp

theorem pathParamScan_acc :
    ∀ (fuel : Nat) (pth : List Char) (pm acc : List PathParamDecl),
      pathParamScan fuel pth pm acc =
        (pathParamScan fuel pth pm []).map (fun l => acc ++ l) := by
  intro fuel
  induction fuel with
  | zero => intro pth pm acc; rfl
  | succ n ih =>
    intro pth pm acc
    unfold pathParamScan
    cases hidx : pth.findIdx? (fun c => c == '{') with
    | none => simp
    | some idx =>
      cases hend : (pth.drop (idx+1)).findIdx? (fun c => c == '}') with
      | none => simp [hend]
      | some endIdx =>
        simp only [hend, List.nil_append]
        rw [ih (pth.drop (idx + endIdx)) pm
              (acc ++ pm.filter
                (fun pr => pr.name = String.mk ((pth.drop (idx+1)).take endIdx))),
            ih (pth.drop (idx + endIdx)) pm
              (pm.filter
                (fun pr => pr.name = String.mk ((pth.drop (idx+1)).take endIdx)))]
        cases pathParamScan n (pth.drop (idx + endIdx)) pm [] <;> simp

theorem pathParamScan_lockstep :
    ∀ (fuel : Nat) (pth : List Char) (pm : List PathParamDecl),
      pathParamScan fuel pth pm [] =
        (placeholderScan fuel pth []).map
          (fun phs => phs.flatMap (fun ph => pm.filter (fun pr => pr.name = ph))) := by
  intro fuel
  induction fuel with
  | zero => intro pth pm; rfl
  | succ n ih =>
    intro pth pm
    unfold pathParamScan placeholderScan
    cases hidx : pth.findIdx? (fun c => c == '{') with
    | none => simp
    | some idx =>
      cases hend : (pth.drop (idx+1)).findIdx? (fun c => c == '}') with
      | none => simp [hend]
      | some endIdx =>
        simp only [hend, List.nil_append]
        rw [pathParamScan_acc, placeholderScan_acc, ih (pth.drop (idx + endIdx)) pm]
        cases placeholderScan n (pth.drop (idx + endIdx)) [] <;> simp

/-- Claim C7: for any path template whose placeholder scan succeeds, the
path-bucket parameters come out in the left-to-right occurrence order of the
`{name}` placeholders: each placeholder contributes, in order, the declared
parameters whose name matches it (from the name-sorted bucket). -/
theorem orderedPathParams_placeholder_order :
    ∀ (tmpl : String) (params : List PathParamDecl) (phs : List String),
      pathPlaceholders tmpl = some phs →
      orderedPathParams tmpl params =
        some (phs.flatMap (fun ph =>
          (List.insertionSort (fun a b => goStrLe a.name b.name = true) params).filter
            (fun pr => pr.name = ph))) := by
  intro tmpl params phs h
  unfold orderedPathParams
  unfold pathPlaceholders at h
  rw [pathParamScan_lockstep, h]
  rfl

/-- Witness for claim C7: the template `"/a/{id}/b/{name}"` with parameters
declared as `[name, id]` or `[id, name]` both yield the ordered bucket
`[id, name]`. -/
theorem orderedPathParams_placeholder_order_witness :
    orderedPathParams "/a/{id}/b/{name}"
        [PathParamDecl.mk "name" "string", PathParamDecl.mk "id" "integer"] =
      some [PathParamDecl.mk "id" "integer", PathParamDecl.mk "name" "string"] ∧
    orderedPathParams "/a/{id}/b/{name}"
        [PathParamDecl.mk "id" "integer", PathParamDecl.mk "name" "string"] =
      some [PathParamDecl.mk "id" "integer", PathParamDecl.mk "name" "string"] :=
  ⟨(orderedPathParams_placeholder_order "/a/{id}/b/{name}"
      [PathParamDecl.mk "name" "string", PathParamDecl.mk "id" "integer"]
      ["id", "name"] (by decide)).trans (by decide),
   (orderedPathParams_placeholder_order "/a/{id}/b/{name}"
      [PathParamDecl.mk "id" "integer", PathParamDecl.mk "name" "string"]
      ["id", "name"] (by decide)).trans (by decide)⟩

/-! ## Claim C8: collision dedup of WriteMethods -/

theorem emitLoop_keys (svc : String) (lookup : String → String → Option String) :
    ∀ (L : List (String × String)) (seen : List String),
      ((emitLoop svc lookup L seen).map (fun e => methKey svc e.2.2)).Nodup ∧
      (∀ k ∈ (emitLoop svc lookup L seen).map (fun e => methKey svc e.2.2),
        k ∉ seen) := by
  intro L
  induction L with
  | nil =>
    intro seen
    exact ⟨List.nodup_nil, by simp [emitLoop]⟩
  | cons pv rest ih =>
    intro seen
    obtain ⟨p, v⟩ := pv
    unfold emitLoop
    cases hl : lookup p v with
    | none => exact ih seen
    | some opID =>
      by_cases hk : methKey svc opID ∈ seen
      · simp only [if_pos hk]
        exact ih seen
      · simp only [if_neg hk, List.map_cons]
        refine ⟨List.nodup_cons.mpr ⟨fun hmem => ?_, (ih _).1⟩, ?_⟩
        · exact ((ih (methKey svc opID :: seen)).2 _ hmem) (List.mem_cons_self _ _)
        · intro k hk2
          rcases List.mem_cons.mp hk2 with rfl | hmem
          · exact hk
          · intro hks
            exact ((ih _).2 _ hmem) (List.mem_cons_of_mem _ hks)

theorem emitLoop_covers (svc : String) (lookup : String → String → Option String) :
    ∀ (L : List (String × String)) (seen : List String)
      (x : String × String × String),
      x ∈ lookupSeq lookup L → methKey svc x.2.2 ∉ seen →
      methKey svc x.2.2 ∈
        (emitLoop svc lookup L seen).map (fun e => methKey svc e.2.2) := by
  intro L
  induction L with
  | nil =>
    intro seen x hx _
    simp [lookupSeq] at hx
  | cons pv rest ih =>
    intro seen x hx hns
    obtain ⟨p, v⟩ := pv
    unfold emitLoop
    unfold lookupSeq at hx
    rw [List.filterMap_cons] at hx
    cases hl : lookup p v with
    | none =>
      rw [hl] at hx
      exact ih seen x hx hns
    | some opID =>
      rw [hl] at hx
      simp only [Option.map_some'] at hx
      by_cases hk : methKey svc opID ∈ seen
      · simp only [if_pos hk]
        rcases List.mem_cons.mp hx with rfl | hmem
        · exact absurd hk hns
        · exact ih seen x hmem hns
      · simp only [if_neg hk, List.map_cons]
        by_cases hkey : methKey svc x.2.2 = methKey svc opID
        · rw [hkey]
          exact List.mem_cons_self _ _
        · rcases List.mem_cons.mp hx with rfl | hmem
          · exact absurd rfl hkey
          · refine List.mem_cons_of_mem _ (ih _ x hmem ?_)
            intro hmem2
            rcases List.mem_cons.mp hmem2 with h | h
            · exact hkey h
            · exact hns h

theorem emitLoop_first (svc : String) (lookup : String → String → Option String) :
    ∀ (L : List (String × String)) (seen : List String)
      (e : String × String × String),
      e ∈ emitLoop svc lookup L seen →
      methKey svc e.2.2 ∉ seen ∧
      (lookupSeq lookup L).find?
          (fun x => methKey svc x.2.2 == methKey svc e.2.2) = some e := by
  intro L
  induction L with
  | nil =>
    intro seen e he
    simp [emitLoop] at he
  | cons pv rest ih =>
    intro seen e he
    obtain ⟨p, v⟩ := pv
    unfold emitLoop at he
    unfold lookupSeq
    rw [List.filterMap_cons]
    cases hl : lookup p v with
    | none =>
      rw [hl] at he
      exact ih seen e he
    | some opID =>
      rw [hl] at he
      have he2 : e ∈ (if methKey svc opID ∈ seen then emitLoop svc lookup rest seen
          else (p, v, opID) :: emitLoop svc lookup rest (methKey svc opID :: seen)) := he
      show methKey svc e.2.2 ∉ seen ∧
        List.find? (fun x => methKey svc x.2.2 == methKey svc e.2.2)
          ((p, v, opID) :: lookupSeq lookup rest) = some e
      by_cases hk : methKey svc opID ∈ seen
      · rw [if_pos hk] at he2
        obtain ⟨hns, hfind⟩ := ih seen e he2
        refine ⟨hns, ?_⟩
        have hne : (methKey svc opID == methKey svc e.2.2) = false := by
          rw [beq_eq_false_iff_ne]
          intro heq
          exact hns (heq ▸ hk)
        rw [List.find?_cons_of_neg _ (by simp [hne])]
        exact hfind
      · rw [if_neg hk] at he2
        rcases List.mem_cons.mp he2 with rfl | hmem
        · refine ⟨hk, ?_⟩
          rw [List.find?_cons_of_pos _ (by simp)]
        · obtain ⟨hns, hfind⟩ := ih _ e hmem
          have hne : methKey svc e.2.2 ≠ methKey svc opID := fun h =>
            hns (by rw [h]; exact List.mem_cons_self _ _)
          refine ⟨fun hseen => hns (List.mem_cons_of_mem _ hseen), ?_⟩
          have hne2 : (methKey svc opID == methKey svc e.2.2) = false := by
            rw [beq_eq_false_iff_ne]
            exact fun h => hne h.symm
          rw [List.find?_cons_of_neg _ (by simp [hne2])]
          exact hfind

/-- Claim C8: in the deterministic (sorted path, sorted verb) iteration of
`WriteMethods`, no two emitted methods share a normalized
`svcName + OperationID + "Call"` key; every operation's key does appear; and
each emitted method is exactly the first operation in iteration order
carrying its key, all later colliding operations being skipped without
error. -/
theorem writeMethods_collision_first_wins
    (svcName : String) (paths verbs : List String)
    (lookup : String → String → Option String) :
    ((WriteMethodsEmit svcName paths verbs lookup).map
        (fun e => methKey svcName e.2.2)).Nodup ∧
    (∀ x ∈ iterSeq paths verbs lookup,
      methKey svcName x.2.2 ∈
        (WriteMethodsEmit svcName paths verbs lookup).map
          (fun e => methKey svcName e.2.2)) ∧
    (∀ e ∈ WriteMethodsEmit svcName paths verbs lookup,
      (iterSeq paths verbs lookup).find?
          (fun x => methKey svcName x.2.2 == methKey svcName e.2.2) = some e) := by
  refine ⟨(emitLoop_keys svcName lookup (methodPairs paths verbs) []).1, ?_, ?_⟩
  · intro x hx
    exact emitLoop_covers svcName lookup (methodPairs paths verbs) [] x hx
      (by simp)
  · intro e he
    exact (emitLoop_first svcName lookup (methodPairs paths verbs) [] e he).2

/-- Witness for claim C8: two colliding operations (`GET /a` and `POST /b`
both normalizing to `"X"`) leave exactly the first-visited one, `GET /a`, as
the method found for the shared key. -/
theorem writeMethods_collision_first_wins_witness :
    (iterSeq ["/b", "/a"] ["GET", "POST"]
        (fun p v =>
          if p = "/a" ∧ v = "GET" then some "X"
          else if p = "/b" ∧ v = "POST" then some "X" else none)).find?
        (fun x => methKey "S" x.2.2 == methKey "S" "X") =
      some ("/a", "GET", "X") :=
  (writeMethods_collision_first_wins "S" ["/b", "/a"] ["GET", "POST"]
      (fun p v =>
        if p = "/a" ∧ v = "GET" then some "X"
        else if p = "/b" ∧ v = "POST" then some "X" else none)).2.2
    ("/a", "GET", "X") (by decide)

/-- Claim C9: `Depunct` emits only the low-order byte of each retained rune
(`depunctWriteByte` is exactly reduction modulo 256), so U+0100 comes out as
the single code point 0 instead of passing through unchanged. -/
theorem depunct_byte_truncation :
    (∀ c : Char, depunctWriteByte c = Char.ofNat (c.toNat % 256)) ∧
    Depunct "Ā" false = some (String.mk [Char.ofNat 0]) ∧
    Depunct "Ā" false ≠ some "Ā" :=
  ⟨fun _ => rfl, by decide, by decide⟩

/-- Claim C10: normalizing the raw name `"type"` with `capitalizeFirst =
false` yields `"typ"`: `FixName` maps the Go keyword before the `Typ`-to-
`Type` exception of `Depunct` is consulted. -/
theorem depunct_type_keyword :
    Depunct "type" false = some "typ" ∧ FixName "type".data = "typ".data := by
  decide

end OpenAPITools
